import Mathlib

/-!
# git-lfs-authenticate: the LDAP membership check

A shallow embedding of `ldap.go` (`checkMembership`, `ldapConnect`,
`ldapGetGroups`) together with the parts of Go's `strings` package and of
`gopkg.in/ldap.v2` that the three functions call.

* Go strings are byte sequences: `GoString = List UInt8`.
* A Go run-time panic (slice bounds out of range) is the constructor `Go.panic`.
* The network, the file system and the directory servers are a parameter
  `Net ε κ` (`ε` the type of non-nil Go errors, `κ` the type of open
  connections).  Every operation of `Net` also receives the number of the loop
  iteration that performs it, so that an endpoint may behave differently at
  different moments.
* `rand.Intn(n)` is `rnd t % n` for an arbitrary stream `rnd : Nat → Nat`; every
  index in `[0, n)` can be produced at every iteration.
* `urls` is a copy of `cfg.Urls` (lines 15-16), so the in-place
  `append(urls[:i], urls[i+1:]...)` is `urls.eraseIdx i` and leaves the
  configuration untouched.
* `defer conn.Close()` releases connections when the function returns; it has no
  effect on the result and is not part of the model.
-/

namespace LfsAuth

/-! ## Go strings and the `strings` package -/

/-- A Go string: an immutable sequence of bytes. -/
abbrev GoString := List UInt8

/-- The bytes (UTF-8) of a string literal of the source. -/
def str (s : String) : GoString := s.toList.flatMap String.utf8EncodeChar

/-- The outcome of a Go computation that may panic at run time. -/
inductive Go (α : Type) where
  | ret (a : α)
  | panic
deriving DecidableEq, Repr

/-- The Go slice expression `s[low:high]` on a string: it panics (here `none`)
unless `0 ≤ low ≤ high ≤ len(s)`. -/
def slice (s : GoString) (low high : Int) : Option GoString :=
  if 0 ≤ low ∧ low ≤ high ∧ high ≤ (s.length : Int) then
    some ((s.take high.toNat).drop low.toNat)
  else
    none

/-- Go `strings.HasPrefix(s, pre)`:
`len(s) >= len(pre) && s[0:len(pre)] == pre`. -/
def HasPrefix (s pre : GoString) : Bool :=
  decide (pre.length ≤ s.length) && (s.take pre.length == pre)

/-- Go `strings.TrimPrefix(s, pre)`: `s` without the leading `pre`, or `s`
itself when `s` does not start with `pre`. -/
def TrimPrefix (s pre : GoString) : GoString :=
  if HasPrefix s pre then s.drop pre.length else s

/-- Search loop of `strings.Index`: `i` is the byte offset of `s` in the
original string. -/
def indexFrom (substr : GoString) : GoString → Nat → Int
  | [], i => if HasPrefix [] substr then (i : Int) else -1
  | c :: cs, i => if HasPrefix (c :: cs) substr then (i : Int) else indexFrom substr cs (i + 1)

/-- Go `strings.Index(s, substr)`: the byte index of the first instance of
`substr` in `s`, or `-1` if `substr` is not present in `s`. -/
def Index (s substr : GoString) : Int := indexFrom substr s 0

/-- Go `strings.Contains(s, substr)`: `Index(s, substr) >= 0`. -/
def Contains (s substr : GoString) : Bool := decide (0 ≤ Index s substr)

/-- The expression `strings.Split(s, sep)[0]` for a non-empty `sep`: the part of
`s` before the first instance of `sep`, or all of `s` when there is none. -/
def splitHead (s sep : GoString) : GoString :=
  if 0 ≤ Index s sep then s.take (Index s sep).toNat else s

/-! ## The environment -/

/-- The fields of `tls.Config` that `ldapConnect` sets.  `RootCAs` is the
certificate pool, represented by the PEM bytes it was filled from. -/
structure TlsConfig where
  InsecureSkipVerify : Bool
  ServerName : GoString
  RootCAs : Option GoString
deriving DecidableEq, Repr

/-- The arguments of `ldap.NewSearchRequest` (the last one, `Controls`, is
`nil` in the source and left out). -/
structure SearchRequest where
  BaseDN : GoString
  Scope : Nat
  DerefAliases : Nat
  SizeLimit : Nat
  TimeLimit : Nat
  TypesOnly : Bool
  Filter : GoString
  Attributes : List GoString
deriving DecidableEq, Repr

/-- `ldap.ScopeWholeSubtree`. -/
def ScopeWholeSubtree : Nat := 2

/-- `ldap.NeverDerefAliases`. -/
def NeverDerefAliases : Nat := 0

/-- An `ldap.Entry`: a distinguished name and its attributes (name, values). -/
structure Entry where
  DN : GoString
  Attributes : List (GoString × List GoString)
deriving DecidableEq, Repr

/-- `(*ldap.Entry).GetAttributeValues`: the values of the first attribute with
the given name, or the empty slice. -/
def Entry.GetAttributeValues (e : Entry) (name : GoString) : List GoString :=
  match e.Attributes.find? (fun a => a.1 == name) with
  | some a => a.2
  | none => []

/-- Everything outside the process.  The first argument of every operation is
the number of the loop iteration of `checkMembership` that performs it. -/
structure Net (ε κ : Type) where
  /-- `ldap.Dial("tcp", addr)` -/
  Dial : Nat → GoString → Except ε κ
  /-- `ldap.DialTLS("tcp", addr, &tlsCfg)` -/
  DialTLS : Nat → GoString → TlsConfig → Except ε κ
  /-- `ioutil.ReadFile(cacert)` -/
  ReadFile : Nat → GoString → Except ε GoString
  /-- `conn.Search(request)`, giving `sr.Entries` -/
  Search : Nat → κ → SearchRequest → Except ε (List Entry)

/-- `LdapConfiguration` of `main.go`. -/
structure LdapConfiguration where
  Urls : List GoString
  Groups : List GoString
  BaseDn : GoString
  Cacert : GoString
deriving DecidableEq, Repr

/-! ## `ldapConnect` -/

/-- Line 64 of `ldap.go`: `useTls := strings.HasPrefix(url, "ldaps")`. -/
def useTls (url : GoString) : Bool := HasPrefix url (str "ldaps")

/-- Lines 66-79 of `ldap.go`: the address that is dialled. -/
def dialAddr (url : GoString) : GoString :=
  let addr := if useTls url then TrimPrefix url (str "ldaps://") else TrimPrefix url (str "ldap://")
  if !Contains addr (str ":") then
    if useTls url then addr ++ str ":636" else addr ++ str ":389"
  else
    addr

/-- `ldapConnect(url, cacert)`, performed during iteration `t`. -/
def ldapConnect {ε κ : Type} (net : Net ε κ) (t : Nat) (url cacert : GoString) : Except ε κ :=
  let addr := dialAddr url
  if !useTls url then
    net.Dial t addr
  else if cacert ≠ str "" then
    match net.ReadFile t cacert with
    | .error err => .error err
    | .ok pem =>
      net.DialTLS t addr
        { InsecureSkipVerify := false, ServerName := splitHead addr (str ":"), RootCAs := some pem }
  else
    net.DialTLS t addr { InsecureSkipVerify := true, ServerName := [], RootCAs := none }

/-! ## `ldapGetGroups` -/

/-- Line 124: the expression `m[3:strings.Index(m, ",")]`. -/
def memberGroup (m : GoString) : Option GoString :=
  slice m 3 (Index m (str ","))

/-- The inner loop of lines 122-125 over the values of one `member`
attribute, appending to `groups`. -/
def appendMembers : List GoString → List GoString → Go (List GoString)
  | groups, [] => .ret groups
  | groups, m :: ms =>
    match memberGroup m with
    | none => .panic
    | some g => appendMembers (groups ++ [g]) ms

/-- The outer loop of lines 121-126 over `sr.Entries`. -/
def appendEntries : List GoString → List Entry → Go (List GoString)
  | groups, [] => .ret groups
  | groups, e :: es =>
    match appendMembers groups (e.GetAttributeValues (str "member")) with
    | .panic => .panic
    | .ret groups1 => appendEntries groups1 es

/-- The search request built at lines 105-115. -/
def searchRequest (dn username : GoString) : SearchRequest :=
  { BaseDN := dn
    Scope := ScopeWholeSubtree
    DerefAliases := NeverDerefAliases
    SizeLimit := 0
    TimeLimit := 0
    TypesOnly := false
    Filter := str "(cn=" ++ username ++ str ")"
    Attributes := [str "member"] }

/-- `ldapGetGroups(conn, dn, username)`, performed during iteration `t`. -/
def ldapGetGroups {ε κ : Type} (net : Net ε κ) (t : Nat) (conn : κ) (dn username : GoString) :
    Go (Except ε (List GoString)) :=
  match net.Search t conn (searchRequest dn username) with
  | .error err => .ret (.error err)
  | .ok entries =>
    match appendEntries [] entries with
    | .panic => .panic
    | .ret groups => .ret (.ok groups)

/-! ## `checkMembership` -/

/-- What one loop iteration of `checkMembership` found at the endpoint it picked. -/
inductive Outcome (ε : Type) where
  /-- `ldapConnect` returned an error (line 23) -/
  | connectFailed (err : ε)
  /-- `ldapGetGroups` returned an error (line 32) -/
  | queryFailed (err : ε)
  /-- `ldapGetGroups` returned the groups of the user -/
  | answered (groups : List GoString)
  /-- the slice expression of line 124 panicked -/
  | panicked
deriving DecidableEq, Repr

/-- One entry of the execution log: the picked endpoint (its position in
`cfg.Urls` and its URL) and what the iteration found there. -/
structure Attempt (ε : Type) where
  pos : Nat
  url : GoString
  outcome : Outcome ε
deriving DecidableEq, Repr

/-- An execution of `checkMembership`: what it returned (`(bool, error)`, a nil
error being `none`) and the log of the iterations it made, oldest first. -/
structure Run (ε : Type) where
  result : Go (Bool × Option ε)
  trace : List (Attempt ε)
deriving DecidableEq, Repr

/-- Prepend a log entry to an execution. -/
def Run.log {ε : Type} (a : Attempt ε) (r : Run ε) : Run ε :=
  { r with trace := a :: r.trace }

/-- Lines 45-52: the nested loops looking for a group that is allowed. -/
def matchGroups (allowedGroups groups : List GoString) : Bool :=
  allowedGroups.any (fun allowed => groups.any (fun group => group == allowed))

/-- The loop of lines 20-57 followed by the return of line 60.  `urls` and
`lastErr` are the variables of the source and `t` counts the iterations made so
far.  `pos` and the log are ghost state: `pos` holds, for every element of
`urls`, its position in `cfg.Urls`, and is updated exactly as `urls` is.
`fuel` bounds the number of iterations; `none` means it ran out. -/
def checkLoop {ε κ : Type} (net : Net ε κ) (rnd : Nat → Nat) (cfg : LdapConfiguration)
    (username : GoString) :
    Nat → Nat → List GoString → List Nat → Option ε → Option (Run ε)
  | _, _, [], _, lastErr => some ⟨.ret (false, lastErr), []⟩
  | 0, _, _ :: _, _, _ => none
  | fuel + 1, t, u :: us, pos, _ =>
    let urls := u :: us
    let i := rnd t % urls.length
    let url := urls.get ⟨i, Nat.mod_lt _ (Nat.succ_pos _)⟩
    let p := pos.getD i 0
    match ldapConnect net t url cfg.Cacert with
    | .error err =>
      (checkLoop net rnd cfg username fuel (t + 1) (urls.eraseIdx i) (pos.eraseIdx i)
        (some err)).map (Run.log ⟨p, url, .connectFailed err⟩)
    | .ok conn =>
      match ldapGetGroups net t conn cfg.BaseDn username with
      | .panic => some ⟨.panic, [⟨p, url, .panicked⟩]⟩
      | .ret (.error err) =>
        (checkLoop net rnd cfg username fuel (t + 1) (urls.eraseIdx i) (pos.eraseIdx i)
          (some err)).map (Run.log ⟨p, url, .queryFailed err⟩)
      | .ret (.ok groups) =>
        if groups.length = 0 then
          some ⟨.ret (false, none), [⟨p, url, .answered groups⟩]⟩
        else if matchGroups cfg.Groups groups then
          some ⟨.ret (true, none), [⟨p, url, .answered groups⟩]⟩
        else
          some ⟨.ret (false, none), [⟨p, url, .answered groups⟩]⟩

/-- An execution of `checkMembership(cfg, username)` of at most `fuel`
iterations, under the random choices `rnd`. -/
def runMembership {ε κ : Type} (net : Net ε κ) (rnd : Nat → Nat) (fuel : Nat)
    (cfg : LdapConfiguration) (username : GoString) : Option (Run ε) :=
  checkLoop net rnd cfg username fuel 0 cfg.Urls (List.range cfg.Urls.length) none

/-- `checkMembership(cfg, username)`: the loop is given `len(cfg.Urls)`
iterations, which always suffice (`checkMembership_terminates`). -/
def checkMembership {ε κ : Type} (net : Net ε κ) (rnd : Nat → Nat)
    (cfg : LdapConfiguration) (username : GoString) : Option (Go (Bool × Option ε)) :=
  (runMembership net rnd cfg.Urls.length cfg username).map Run.result

/-- What the endpoint `url` does when it is tried during iteration `t`:
`ldapConnect` followed by `ldapGetGroups`. -/
def endpointOutcome {ε κ : Type} (net : Net ε κ) (cfg : LdapConfiguration)
    (username : GoString) (t : Nat) (url : GoString) : Outcome ε :=
  match ldapConnect net t url cfg.Cacert with
  | .error err => .connectFailed err
  | .ok conn =>
    match ldapGetGroups net t conn cfg.BaseDn username with
    | .panic => .panicked
    | .ret (.error err) => .queryFailed err
    | .ret (.ok groups) => .answered groups

/-- The error of a failed attempt (connect or query stage). -/
def Outcome.error? {ε : Type} : Outcome ε → Option ε
  | .connectFailed err => some err
  | .queryFailed err => some err
  | .answered _ => none
  | .panicked => none

/-- The attempt failed at the connect or at the query stage. -/
def Outcome.failed {ε : Type} (o : Outcome ε) : Bool := o.error?.isSome

/-! ## An example network and configurations -/

/-- A directory in which the server `dirsrv` knows one user entry, member of
the groups `dev` and `ops`, the server `empty` answers with no entry, and every
other address refuses the connection. -/
def demoNet : Net String GoString where
  Dial := fun _ addr =>
    if addr = str "dirsrv:389" ∨ addr = str "empty:389" then .ok addr else .error "connection refused"
  DialTLS := fun _ addr _ =>
    if addr = str "dirsrv:636" then .ok addr else .error "tls: handshake failure"
  ReadFile := fun _ _ => .error "no such file"
  Search := fun _ conn req =>
    if conn = str "empty:389" then .ok []
    else if req.Filter = str "(cn=alice)" then
      .ok [⟨str "cn=alice,ou=people,dc=example,dc=com",
            [(str "member", [str "cn=dev,ou=groups,dc=example,dc=com",
                             str "cn=ops,ou=groups,dc=example,dc=com"])]⟩]
    else .error "search failed"

/-- A configuration: two dead endpoints and `dirsrv`; `ops` is allowed. -/
def demoCfg : LdapConfiguration where
  Urls := [str "ldap://down1", str "ldap://dirsrv", str "ldap://down2"]
  Groups := [str "ops"]
  BaseDn := str "dc=example,dc=com"
  Cacert := str ""

/-! ## Definitions used by the statements -/

/-- The byte of an ASCII character. -/
def byte (c : Char) : UInt8 := c.toNat.toUInt8

/-- A network that answers every dial with the call it received: whether TLS
was asked for, and the address. -/
def spyNet : Net String (Bool × GoString) where
  Dial := fun _ addr => .ok (false, addr)
  DialTLS := fun _ addr _ => .ok (true, addr)
  ReadFile := fun _ _ => .error "no such file"
  Search := fun _ _ _ => .ok []

/-- The values of the `member` attribute of an entry. -/
def members (e : Entry) : List GoString := e.GetAttributeValues (str "member")

/-- The member value `cn=<g>,<r>`. -/
def cnValue (g r : GoString) : GoString := str "cn=" ++ g ++ str "," ++ r

/-- The call `ldapConnect(url, cacert)` is a TLS dial of the address `addr`: with
certificate validation disabled when no CA file is configured, otherwise with
the pool read from the CA file (or it returns the error of reading that file). -/
def DialsTLS {ε κ : Type} (net : Net ε κ) (t : Nat) (url cacert addr : GoString) : Prop :=
  ldapConnect net t url cacert =
    if cacert = str "" then
      net.DialTLS t addr ⟨true, [], none⟩
    else
      match net.ReadFile t cacert with
      | .error err => .error err
      | .ok pem => net.DialTLS t addr ⟨false, splitHead addr (str ":"), some pem⟩

/-- The last error recorded after the given log entries, starting from `lastErr`:
the variable `lastErr` of the source once the logged iterations have run. -/
def lastErrAfter {ε : Type} : Option ε → List (Attempt ε) → Option ε
  | lastErr, [] => lastErr
  | _, a :: as => lastErrAfter a.outcome.error? as

/-- The endpoint of a log entry: its position in `cfg.Urls` and its URL. -/
def Attempt.key {ε : Type} (a : Attempt ε) : Nat × GoString := (a.pos, a.url)

/-- What holds of an execution of the loop started at iteration `t` on the pool
`pool` (positions and URLs) with the last error `lastErr`. -/
structure RunInv {ε κ : Type} (net : Net ε κ) (cfg : LdapConfiguration) (username : GoString)
    (t : Nat) (pool : List (Nat × GoString)) (lastErr : Option ε) (r : Run ε) : Prop where
  /-- every log entry holds what its endpoint did at its iteration -/
  outcomes : ∀ j a, r.trace[j]? = some a →
    a.outcome = endpointOutcome net cfg username (t + j) a.url
  /-- the logged endpoints are distinct elements of the pool -/
  subperm : (r.trace.map Attempt.key).Subperm pool
  /-- how the execution ended -/
  shape :
    ((r.trace.map Attempt.key).Perm pool ∧ (∀ a ∈ r.trace, a.outcome.failed = true) ∧
        r.result = .ret (false, lastErrAfter lastErr r.trace)) ∨
    (∃ pre a G, r.trace = pre ++ [a] ∧ (∀ b ∈ pre, b.outcome.failed = true) ∧
        a.outcome = .answered G ∧ r.result = .ret (matchGroups cfg.Groups G, none)) ∨
    (∃ pre a, r.trace = pre ++ [a] ∧ (∀ b ∈ pre, b.outcome.failed = true) ∧
        a.outcome = .panicked ∧ r.result = .panic)

/-- Two endpoints, both refusing the connection. -/
def downCfg : LdapConfiguration where
  Urls := [str "ldap://down1", str "ldap://down2"]
  Groups := [str "ops"]
  BaseDn := str "dc=example,dc=com"
  Cacert := str ""

/-- The server `dirsrv` twice, once in plaintext and once over TLS. -/
def twinCfg : LdapConfiguration where
  Urls := [str "ldap://dirsrv", str "ldaps://dirsrv"]
  Groups := [str "admin", str "dev"]
  BaseDn := str "dc=example,dc=com"
  Cacert := str ""

/-- The server `dirsrv` alone, with an allow-list its user is not in. -/
def strictCfg : LdapConfiguration where
  Urls := [str "ldap://dirsrv"]
  Groups := [str "admin"]
  BaseDn := str "dc=example,dc=com"
  Cacert := str ""

/-- The selection order from iteration `t` on: the endpoints of the pool `urls`
in the order in which the loop picks them for as long as the attempts fail.  At
iteration `t` the element of index `rnd t % len(urls)` is picked (line 21) and
removed from the pool (lines 26 and 35).  `fuel` bounds the length. -/
def selectionFrom (rnd : Nat → Nat) : Nat → Nat → List GoString → List GoString
  | 0, _, _ => []
  | _ + 1, _, [] => []
  | fuel + 1, t, u :: us =>
    (u :: us).get ⟨rnd t % (u :: us).length, Nat.mod_lt _ (Nat.succ_pos _)⟩ ::
      selectionFrom rnd fuel (t + 1) ((u :: us).eraseIdx (rnd t % (u :: us).length))

/-- The selection order of a whole execution under the random choices `rnd`:
element `j` is the endpoint tried at iteration `j` when the iterations before
it failed. -/
def selection (rnd : Nat → Nat) (urls : List GoString) : List GoString :=
  selectionFrom rnd urls.length 0 urls

/-- A dead endpoint, an endpoint that answers with no entry, and `dirsrv`. -/
def emptyCfg : LdapConfiguration where
  Urls := [str "ldap://down1", str "ldap://empty", str "ldap://dirsrv"]
  Groups := [str "ops"]
  BaseDn := str "dc=example,dc=com"
  Cacert := str ""

/-! ## Lemmas on the `strings` package -/

theorem str_comma : str "," = [byte ','] := by decide

theorem str_colon : str ":" = [byte ':'] := by decide

theorem str_empty : str "" = [] := by decide

theorem HasPrefix_iff (s pre : GoString) : HasPrefix s pre = true ↔ pre <+: s := by
  unfold HasPrefix
  rw [Bool.and_eq_true, decide_eq_true_eq, beq_iff_eq]
  constructor
  · rintro ⟨_, h⟩
    exact h ▸ List.take_prefix _ _
  · intro h
    exact ⟨h.length_le, List.prefix_iff_eq_take.mp h |>.symm⟩

theorem HasPrefix_append (pre r : GoString) : HasPrefix (pre ++ r) pre = true :=
  (HasPrefix_iff _ _).mpr (List.prefix_append _ _)

theorem TrimPrefix_append (pre r : GoString) : TrimPrefix (pre ++ r) pre = r := by
  simp [TrimPrefix, HasPrefix_append]

theorem HasPrefix_cons_singleton (x c : UInt8) (cs : GoString) :
    HasPrefix (x :: cs) [c] = decide (x = c) := by
  by_cases h : x = c <;> simp [HasPrefix, h]

theorem HasPrefix_nil_singleton (c : UInt8) : HasPrefix [] [c] = false := by
  simp [HasPrefix]

theorem indexFrom_not_mem (c : UInt8) (s : GoString) (i : Nat) (h : c ∉ s) :
    indexFrom [c] s i = -1 := by
  induction s generalizing i with
  | nil => simp [indexFrom, HasPrefix_nil_singleton]
  | cons x xs ih =>
    have hx : x ≠ c := fun e => h (e ▸ List.mem_cons_self _ _)
    have hxs : c ∉ xs := fun e => h (List.mem_cons_of_mem _ e)
    simp [indexFrom, HasPrefix_cons_singleton, hx, ih _ hxs]

theorem indexFrom_first (c : UInt8) (g r : GoString) (i : Nat) (h : c ∉ g) :
    indexFrom [c] (g ++ c :: r) i = ((i + g.length : Nat) : Int) := by
  induction g generalizing i with
  | nil => simp [indexFrom, HasPrefix_cons_singleton]
  | cons x xs ih =>
    have hx : x ≠ c := fun e => h (e ▸ List.mem_cons_self _ _)
    have hxs : c ∉ xs := fun e => h (List.mem_cons_of_mem _ e)
    show indexFrom [c] (x :: (xs ++ c :: r)) i = _
    rw [indexFrom, HasPrefix_cons_singleton, decide_eq_false hx, if_neg Bool.false_ne_true,
      ih _ hxs, List.length_cons]
    congr 1
    omega

/-- A string either does not hold the byte `c` or splits at its first `c`. -/
theorem split_at_first (c : UInt8) (s : GoString) :
    c ∉ s ∨ ∃ g r, s = g ++ c :: r ∧ c ∉ g := by
  induction s with
  | nil => exact Or.inl (List.not_mem_nil _)
  | cons x xs ih =>
    by_cases hx : x = c
    · exact Or.inr ⟨[], xs, by simp [hx], List.not_mem_nil _⟩
    · rcases ih with h | ⟨g, r, hs, hg⟩
      · left
        simp [h, Ne.symm hx]
      · right
        refine ⟨x :: g, r, by simp [hs], ?_⟩
        simp [hg, Ne.symm hx]

theorem Index_not_mem (c : UInt8) (s : GoString) (h : c ∉ s) : Index s [c] = -1 :=
  indexFrom_not_mem c s 0 h

theorem Index_first (c : UInt8) (g r : GoString) (h : c ∉ g) :
    Index (g ++ c :: r) [c] = (g.length : Int) := by
  simp [Index, indexFrom_first c g r 0 h]

theorem Contains_singleton (c : UInt8) (s : GoString) : Contains s [c] = decide (c ∈ s) := by
  rcases split_at_first c s with h | ⟨g, r, hs, hg⟩
  · simp [Contains, Index_not_mem c s h, h]
  · subst hs
    simp [Contains, Index_first c g r hg]

theorem slice_eq_some (s : GoString) (low high : Nat) (h1 : low ≤ high) (h2 : high ≤ s.length) :
    slice s low high = some ((s.take high).drop low) := by
  have : (0 : Int) ≤ low ∧ (low : Int) ≤ high ∧ (high : Int) ≤ s.length := by omega
  simp [slice, this]

theorem memberGroup_no_comma (m : GoString) (h : byte ',' ∉ m) : memberGroup m = none := by
  simp [memberGroup, str_comma, Index_not_mem _ m h, slice]

theorem memberGroup_split (g r : GoString) (h : byte ',' ∉ g) :
    memberGroup (g ++ byte ',' :: r) = if 3 ≤ g.length then some (g.drop 3) else none := by
  simp only [memberGroup, str_comma, Index_first _ g r h]
  split
  · next h3 =>
    have := slice_eq_some (g ++ byte ',' :: r) 3 g.length h3 (by simp)
    simpa using this
  · next h3 =>
    have : ¬ ((3 : Int) ≤ (g.length : Int)) := by omega
    simp [slice, this]

/-! ## Lemmas on `ldapGetGroups` -/

theorem appendMembers_ret (ms groups : List GoString) (h : ∀ m ∈ ms, memberGroup m ≠ none) :
    appendMembers groups ms = .ret (groups ++ ms.filterMap memberGroup) := by
  induction ms generalizing groups with
  | nil => simp [appendMembers]
  | cons m ms ih =>
    have hm := h m (List.mem_cons_self _ _)
    obtain ⟨g, hg⟩ := Option.ne_none_iff_exists'.mp hm
    have hms : ∀ x ∈ ms, memberGroup x ≠ none := fun x hx => h x (List.mem_cons_of_mem _ hx)
    simp [appendMembers, hg, ih _ hms]

theorem appendMembers_panic (ms groups : List GoString) (h : ∃ m ∈ ms, memberGroup m = none) :
    appendMembers groups ms = .panic := by
  induction ms generalizing groups with
  | nil => simp at h
  | cons m ms ih =>
    cases hm : memberGroup m with
    | none => simp [appendMembers, hm]
    | some g =>
      obtain ⟨x, hx, hxn⟩ := h
      have hx2 : x ∈ ms := by
        rcases List.mem_cons.mp hx with e | e
        · rw [e, hm] at hxn
          cases hxn
        · exact e
      simp [appendMembers, hm, ih _ ⟨x, hx2, hxn⟩]

theorem appendEntries_ret (es : List Entry) (groups : List GoString)
    (h : ∀ e ∈ es, ∀ m ∈ members e, memberGroup m ≠ none) :
    appendEntries groups es = .ret (groups ++ (es.flatMap members).filterMap memberGroup) := by
  induction es generalizing groups with
  | nil => simp [appendEntries]
  | cons e es ih =>
    have he := appendMembers_ret (members e) groups (h e (List.mem_cons_self _ _))
    have hes : ∀ x ∈ es, ∀ m ∈ members x, memberGroup m ≠ none :=
      fun x hx => h x (List.mem_cons_of_mem _ hx)
    unfold members at he
    simp [appendEntries, he, ih _ hes, List.filterMap_append, members]

theorem appendEntries_panic (es : List Entry) (groups : List GoString)
    (h : ∃ e ∈ es, ∃ m ∈ members e, memberGroup m = none) :
    appendEntries groups es = .panic := by
  induction es generalizing groups with
  | nil => simp at h
  | cons e es ih =>
    by_cases hb : ∃ m ∈ members e, memberGroup m = none
    · have := appendMembers_panic (members e) groups hb
      unfold members at this
      simp [appendEntries, this]
    · have hok : ∀ m ∈ members e, memberGroup m ≠ none := fun m hm hn => hb ⟨m, hm, hn⟩
      have he := appendMembers_ret (members e) groups hok
      unfold members at he
      obtain ⟨x, hx, hxb⟩ := h
      have hx2 : x ∈ es := by
        rcases List.mem_cons.mp hx with e1 | e1
        · exact absurd (e1 ▸ hxb) hb
        · exact e1
      simp [appendEntries, he, ih _ ⟨x, hx2, hxb⟩]

theorem memberGroup_cnValue (g r : GoString) (h : byte ',' ∉ g) :
    memberGroup (cnValue g r) = some g := by
  have h3 : byte ',' ∉ str "cn=" ++ g := by
    have : byte ',' ∉ str "cn=" := by decide
    simp [this, h]
  have := memberGroup_split (str "cn=" ++ g) r h3
  have e : cnValue g r = (str "cn=" ++ g) ++ byte ',' :: r := by
    simp [cnValue, str_comma]
  rw [e, this]
  have hl : (str "cn=").length = 3 := by decide
  simp [hl]

theorem filterMap_cnValue (ms : List GoString)
    (h : ∀ m ∈ ms, ∃ g r, byte ',' ∉ g ∧ m = cnValue g r) :
    List.Forall₂ (fun m g => ∃ r, byte ',' ∉ g ∧ m = cnValue g r) ms
      (ms.filterMap memberGroup) := by
  induction ms with
  | nil => simp
  | cons m ms ih =>
    obtain ⟨g, r, hg, hm⟩ := h m (List.mem_cons_self _ _)
    have hms := ih (fun x hx => h x (List.mem_cons_of_mem _ hx))
    have e : memberGroup m = some g := hm ▸ memberGroup_cnValue g r hg
    rw [List.filterMap_cons_some e]
    exact List.Forall₂.cons ⟨r, hg, hm⟩ hms

theorem useTls_iff (url : GoString) : useTls url = true ↔ ∃ r, url = str "ldaps" ++ r := by
  unfold useTls
  rw [HasPrefix_iff]
  constructor
  · rintro ⟨r, hr⟩
    exact ⟨r, hr.symm⟩
  · rintro ⟨r, hr⟩
    exact ⟨r, hr.symm⟩

theorem ldapConnect_plain {ε κ : Type} (net : Net ε κ) (t : Nat) (url cacert : GoString)
    (h : useTls url = false) : ldapConnect net t url cacert = net.Dial t (dialAddr url) := by
  simp [ldapConnect, h]

theorem ldapConnect_tls {ε κ : Type} (net : Net ε κ) (t : Nat) (url cacert : GoString)
    (h : useTls url = true) :
    ldapConnect net t url cacert =
      if cacert = str "" then
        net.DialTLS t (dialAddr url) ⟨true, [], none⟩
      else
        match net.ReadFile t cacert with
        | .error err => .error err
        | .ok pem => net.DialTLS t (dialAddr url) ⟨false, splitHead (dialAddr url) (str ":"), some pem⟩ := by
  by_cases hc : cacert = str "" <;> simp [ldapConnect, h, hc]

theorem useTls_ldap (a : GoString) : useTls (str "ldap://" ++ a) = false := by
  rw [Bool.eq_false_iff, Ne, useTls_iff]
  rintro ⟨r, hr⟩
  have e1 : str "ldap://" = [108, 100, 97, 112, 58, 47, 47] := by decide
  have e2 : str "ldaps" = [108, 100, 97, 112, 115] := by decide
  rw [e1, e2] at hr
  simp at hr

theorem useTls_ldaps (a : GoString) : useTls (str "ldaps://" ++ a) = true := by
  rw [useTls_iff]
  refine ⟨str "://" ++ a, ?_⟩
  have e1 : str "ldaps://" = str "ldaps" ++ str "://" := by decide
  rw [e1, List.append_assoc]

theorem dialAddr_ldap (a : GoString) :
    dialAddr (str "ldap://" ++ a) = if byte ':' ∈ a then a else a ++ str ":389" := by
  simp only [dialAddr, useTls_ldap, TrimPrefix_append, str_colon, Contains_singleton]
  by_cases h : byte ':' ∈ a <;> simp [h]

theorem dialAddr_ldaps (a : GoString) :
    dialAddr (str "ldaps://" ++ a) = if byte ':' ∈ a then a else a ++ str ":636" := by
  simp only [dialAddr, useTls_ldaps, TrimPrefix_append, str_colon, Contains_singleton]
  by_cases h : byte ':' ∈ a <;> simp [h]

/-! ## Lemmas on the loop -/

section Loop

variable {ε κ : Type} (net : Net ε κ) (rnd : Nat → Nat) (cfg : LdapConfiguration)
  (username : GoString)

theorem matchGroups_nil (allowedGroups : List GoString) : matchGroups allowedGroups [] = false := by
  simp [matchGroups]

theorem matchGroups_iff (allowedGroups groups : List GoString) :
    matchGroups allowedGroups groups = true ↔ ∃ g ∈ groups, g ∈ allowedGroups := by
  simp only [matchGroups, List.any_eq_true, beq_iff_eq]
  constructor
  · rintro ⟨a, ha, g, hg, e⟩
    exact ⟨g, hg, e ▸ ha⟩
  · rintro ⟨g, hg, ha⟩
    exact ⟨g, ha, g, hg, rfl⟩

theorem checkLoop_nil (fuel t : Nat) (pos : List Nat) (lastErr : Option ε) :
    checkLoop net rnd cfg username fuel t [] pos lastErr = some ⟨.ret (false, lastErr), []⟩ := by
  cases fuel <;> rfl

theorem checkLoop_step (fuel t : Nat) (u : GoString) (us : List GoString) (pos : List Nat)
    (lastErr : Option ε) (url : GoString)
    (hurl : (u :: us)[rnd t % (u :: us).length]? = some url) :
    checkLoop net rnd cfg username (fuel + 1) t (u :: us) pos lastErr =
      match endpointOutcome net cfg username t url with
      | .connectFailed err =>
        (checkLoop net rnd cfg username fuel (t + 1) ((u :: us).eraseIdx (rnd t % (u :: us).length))
          (pos.eraseIdx (rnd t % (u :: us).length)) (some err)).map
          (Run.log ⟨pos.getD (rnd t % (u :: us).length) 0, url, .connectFailed err⟩)
      | .queryFailed err =>
        (checkLoop net rnd cfg username fuel (t + 1) ((u :: us).eraseIdx (rnd t % (u :: us).length))
          (pos.eraseIdx (rnd t % (u :: us).length)) (some err)).map
          (Run.log ⟨pos.getD (rnd t % (u :: us).length) 0, url, .queryFailed err⟩)
      | .answered groups =>
        some ⟨.ret (matchGroups cfg.Groups groups, none),
          [⟨pos.getD (rnd t % (u :: us).length) 0, url, .answered groups⟩]⟩
      | .panicked => some ⟨.panic, [⟨pos.getD (rnd t % (u :: us).length) 0, url, .panicked⟩]⟩ := by
  have hlt : rnd t % (u :: us).length < (u :: us).length := Nat.mod_lt _ (Nat.succ_pos _)
  have hget : (u :: us).get ⟨rnd t % (u :: us).length, hlt⟩ = url := by
    rw [List.getElem?_eq_getElem hlt] at hurl
    exact Option.some.inj hurl
  rw [checkLoop]
  simp only [hget, endpointOutcome]
  cases h1 : ldapConnect net t url cfg.Cacert with
  | error err => rfl
  | ok conn =>
    dsimp only
    cases h2 : ldapGetGroups net t conn cfg.BaseDn username with
    | panic => rfl
    | ret x =>
      cases x with
      | error err => rfl
      | ok groups =>
        cases groups with
        | nil => simp [matchGroups_nil]
        | cons g gs =>
          cases hm : matchGroups cfg.Groups (g :: gs) <;> simp [hm]

theorem perm_get_cons_eraseIdx {α : Type} (l : List α) (i : Nat) (x : α) (h : l[i]? = some x) :
    l.Perm (x :: l.eraseIdx i) := by
  induction l generalizing i with
  | nil => simp at h
  | cons y ys ih =>
    cases i with
    | zero =>
      simp at h
      simp [h]
    | succ i =>
      simp at h
      simp only [List.eraseIdx_cons_succ]
      exact (List.Perm.cons y (ih i h)).trans (List.Perm.swap x y _)

theorem zip_eraseIdx {α β : Type} (l : List α) (m : List β) (i : Nat) :
    (l.eraseIdx i).zip (m.eraseIdx i) = (l.zip m).eraseIdx i := by
  induction l generalizing m i with
  | nil => simp
  | cons x xs ih =>
    cases m with
    | nil => simp
    | cons y ys =>
      cases i with
      | zero => simp
      | succ i => simp [ih]

theorem lastErrAfter_append (lastErr : Option ε) (pre : List (Attempt ε)) (a : Attempt ε) :
    lastErrAfter lastErr (pre ++ [a]) = a.outcome.error? := by
  induction pre generalizing lastErr with
  | nil => rfl
  | cons b bs ih => simpa [lastErrAfter] using ih _

theorem RunInv.nil (t : Nat) (lastErr : Option ε) :
    RunInv net cfg username t [] lastErr ⟨.ret (false, lastErr), []⟩ where
  outcomes := by simp
  subperm := by simp
  shape := Or.inl ⟨by simp, by simp, rfl⟩

theorem RunInv.answered (t : Nat) (pool : List (Nat × GoString)) (lastErr : Option ε)
    (a : Attempt ε) (G : List GoString) (hG : a.outcome = .answered G)
    (ha : a.outcome = endpointOutcome net cfg username t a.url) (hk : a.key ∈ pool) :
    RunInv net cfg username t pool lastErr ⟨.ret (matchGroups cfg.Groups G, none), [a]⟩ where
  outcomes := by
    intro j b hb
    cases j with
    | zero =>
      simp at hb
      subst hb
      simpa using ha
    | succ j => simp at hb
  subperm := by simpa [List.singleton_subperm_iff] using hk
  shape := Or.inr (Or.inl ⟨[], a, G, rfl, by simp, hG, rfl⟩)

theorem RunInv.panicked (t : Nat) (pool : List (Nat × GoString)) (lastErr : Option ε)
    (a : Attempt ε) (hG : a.outcome = .panicked)
    (ha : a.outcome = endpointOutcome net cfg username t a.url) (hk : a.key ∈ pool) :
    RunInv net cfg username t pool lastErr ⟨.panic, [a]⟩ where
  outcomes := by
    intro j b hb
    cases j with
    | zero =>
      simp at hb
      subst hb
      simpa using ha
    | succ j => simp at hb
  subperm := by simpa [List.singleton_subperm_iff] using hk
  shape := Or.inr (Or.inr ⟨[], a, rfl, by simp, hG, rfl⟩)

theorem RunInv.log_failed (t : Nat) (pool pool1 : List (Nat × GoString)) (lastErr : Option ε)
    (a : Attempt ε) (e : ε) (r : Run ε) (he : a.outcome.error? = some e)
    (ha : a.outcome = endpointOutcome net cfg username t a.url)
    (hperm : pool.Perm (a.key :: pool1))
    (inv : RunInv net cfg username (t + 1) pool1 (some e) r) :
    RunInv net cfg username t pool lastErr (r.log a) where
  outcomes := by
    intro j b hb
    cases j with
    | zero =>
      simp [Run.log] at hb
      subst hb
      simpa using ha
    | succ j =>
      simp [Run.log] at hb
      have := inv.outcomes j b hb
      rw [this]
      congr 1
      omega
  subperm := by
    have h1 : (a.key :: r.trace.map Attempt.key).Subperm (a.key :: pool1) :=
      (List.subperm_cons _).mpr inv.subperm
    exact h1.trans hperm.symm.subperm
  shape := by
    have hf : a.outcome.failed = true := by simp [Outcome.failed, he]
    rcases inv.shape with ⟨hp, hall, hres⟩ | ⟨pre, b, G, htr, hpre, hb, hres⟩ |
      ⟨pre, b, htr, hpre, hb, hres⟩
    · refine Or.inl ⟨(hp.cons a.key).trans hperm.symm, ?_, ?_⟩
      · intro x hx
        rcases List.mem_cons.mp hx with h | h
        · exact h ▸ hf
        · exact hall x h
      · simp [Run.log, lastErrAfter, he, hres]
    · refine Or.inr (Or.inl ⟨a :: pre, b, G, by simp [Run.log, htr], ?_, hb, hres⟩)
      intro x hx
      rcases List.mem_cons.mp hx with h | h
      · exact h ▸ hf
      · exact hpre x h
    · refine Or.inr (Or.inr ⟨a :: pre, b, by simp [Run.log, htr], ?_, hb, hres⟩)
      intro x hx
      rcases List.mem_cons.mp hx with h | h
      · exact h ▸ hf
      · exact hpre x h

theorem checkLoop_inv (fuel : Nat) :
    ∀ (t : Nat) (urls : List GoString) (pos : List Nat) (lastErr : Option ε),
      urls.length ≤ fuel → pos.length = urls.length →
      ∃ r, checkLoop net rnd cfg username fuel t urls pos lastErr = some r ∧
        RunInv net cfg username t (pos.zip urls) lastErr r := by
  induction fuel with
  | zero =>
    intro t urls pos lastErr hf _
    have hnil : urls = [] := List.length_eq_zero.mp (Nat.le_zero.mp hf)
    subst hnil
    exact ⟨_, checkLoop_nil net rnd cfg username 0 t pos lastErr, by
      simpa using RunInv.nil net cfg username t lastErr⟩
  | succ fuel ih =>
    intro t urls pos lastErr hf hp
    cases urls with
    | nil =>
      exact ⟨_, checkLoop_nil net rnd cfg username _ t pos lastErr, by
        simpa using RunInv.nil net cfg username t lastErr⟩
    | cons u us =>
      have hlt : rnd t % (u :: us).length < (u :: us).length := Nat.mod_lt _ (Nat.succ_pos _)
      generalize hi : rnd t % (u :: us).length = i at hlt
      have hurl : (u :: us)[i]? = some ((u :: us)[i]) := List.getElem?_eq_getElem hlt
      generalize (u :: us)[i] = url at hurl
      have hltp : i < pos.length := hp ▸ hlt
      have hpp : pos[i]? = some (pos[i]) := List.getElem?_eq_getElem hltp
      have hpD : pos.getD i 0 = pos[i] := by simp [List.getD, hpp]
      generalize pos[i] = p at hpp hpD
      have hkey : (pos.zip (u :: us))[i]? = some (p, url) := by
        simp [List.getElem?_zip_eq_some, hpp, hurl]
      have hperm := perm_get_cons_eraseIdx (pos.zip (u :: us)) i (p, url) hkey
      have hmem : (p, url) ∈ pos.zip (u :: us) := List.getElem?_mem hkey
      have hstep := checkLoop_step net rnd cfg username fuel t u us pos lastErr url (hi ▸ hurl)
      rw [hi, hpD] at hstep
      have hrec : ∀ e, ∃ r, checkLoop net rnd cfg username fuel (t + 1) ((u :: us).eraseIdx i)
          (pos.eraseIdx i) (some e) = some r ∧
          RunInv net cfg username (t + 1) ((pos.zip (u :: us)).eraseIdx i) (some e) r := by
        intro e
        have h1 : ((u :: us).eraseIdx i).length ≤ fuel := by
          rw [List.length_eraseIdx_of_lt hlt]
          simp at hf ⊢
          omega
        have h2 : (pos.eraseIdx i).length = ((u :: us).eraseIdx i).length := by
          rw [List.length_eraseIdx_of_lt hlt, List.length_eraseIdx_of_lt hltp, hp]
        have := ih (t + 1) _ _ (some e) h1 h2
        rwa [zip_eraseIdx] at this
      cases ho : endpointOutcome net cfg username t url with
      | connectFailed e =>
        obtain ⟨r, hr, inv⟩ := hrec e
        rw [ho] at hstep
        refine ⟨r.log ⟨p, url, .connectFailed e⟩, by simp [hstep, hr], ?_⟩
        exact RunInv.log_failed net cfg username t _ _ lastErr ⟨p, url, .connectFailed e⟩ e r rfl
          ho.symm hperm inv
      | queryFailed e =>
        obtain ⟨r, hr, inv⟩ := hrec e
        rw [ho] at hstep
        refine ⟨r.log ⟨p, url, .queryFailed e⟩, by simp [hstep, hr], ?_⟩
        exact RunInv.log_failed net cfg username t _ _ lastErr ⟨p, url, .queryFailed e⟩ e r rfl
          ho.symm hperm inv
      | answered G =>
        rw [ho] at hstep
        exact ⟨_, hstep, RunInv.answered net cfg username t _ lastErr ⟨p, url, .answered G⟩ G rfl
          ho.symm hmem⟩
      | panicked =>
        rw [ho] at hstep
        exact ⟨_, hstep, RunInv.panicked net cfg username t _ lastErr ⟨p, url, .panicked⟩ rfl
          ho.symm hmem⟩

theorem checkLoop_fuel (fuel1 : Nat) :
    ∀ (fuel2 t : Nat) (urls : List GoString) (pos : List Nat) (lastErr : Option ε),
      urls.length ≤ fuel1 → urls.length ≤ fuel2 →
      checkLoop net rnd cfg username fuel2 t urls pos lastErr =
        checkLoop net rnd cfg username fuel1 t urls pos lastErr := by
  induction fuel1 with
  | zero =>
    intro fuel2 t urls pos lastErr hf _
    have hnil : urls = [] := List.length_eq_zero.mp (Nat.le_zero.mp hf)
    subst hnil
    rw [checkLoop_nil, checkLoop_nil]
  | succ fuel1 ih =>
    intro fuel2 t urls pos lastErr hf1 hf2
    cases urls with
    | nil => rw [checkLoop_nil, checkLoop_nil]
    | cons u us =>
      cases fuel2 with
      | zero => simp at hf2
      | succ fuel2 =>
        have hlt : rnd t % (u :: us).length < (u :: us).length := Nat.mod_lt _ (Nat.succ_pos _)
        have hurl := List.getElem?_eq_getElem hlt
        have h1 : ((u :: us).eraseIdx (rnd t % (u :: us).length)).length ≤ fuel1 := by
          rw [List.length_eraseIdx_of_lt hlt]
          simp at hf1 ⊢
          omega
        have h2 : ((u :: us).eraseIdx (rnd t % (u :: us).length)).length ≤ fuel2 := by
          rw [List.length_eraseIdx_of_lt hlt]
          simp at hf2 ⊢
          omega
        rw [checkLoop_step net rnd cfg username fuel1 t u us pos lastErr _ hurl,
          checkLoop_step net rnd cfg username fuel2 t u us pos lastErr _ hurl]
        cases endpointOutcome net cfg username t (u :: us)[rnd t % (u :: us).length] with
        | connectFailed e => simp only [ih fuel2 (t + 1) _ _ (some e) h1 h2]
        | queryFailed e => simp only [ih fuel2 (t + 1) _ _ (some e) h1 h2]
        | answered G => rfl
        | panicked => rfl

theorem mem_range_zip (l : List GoString) (p : Nat) (u : GoString)
    (h : (p, u) ∈ (List.range l.length).zip l) : l[p]? = some u := by
  obtain ⟨k, hk⟩ := List.mem_iff_getElem?.mp h
  rw [List.getElem?_zip_eq_some] at hk
  obtain ⟨h1, h2⟩ := hk
  have hlt : k < l.length := by
    by_contra hc
    rw [List.getElem?_eq_none (by simpa using hc)] at h2
    cases h2
  rw [List.getElem?_range hlt] at h1
  cases h1
  exact h2

theorem mem_zip_range (l : List GoString) (u : GoString) (h : u ∈ l) :
    ∃ p, (p, u) ∈ (List.range l.length).zip l := by
  obtain ⟨k, hk⟩ := List.mem_iff_getElem?.mp h
  have hlt : k < l.length := by
    by_contra hc
    rw [List.getElem?_eq_none (by simpa using hc)] at hk
    cases hk
  refine ⟨k, List.getElem?_mem (n := k) ?_⟩
  rw [List.getElem?_zip_eq_some]
  exact ⟨List.getElem?_range hlt, hk⟩

theorem runMembership_inv (fuel : Nat) (hf : cfg.Urls.length ≤ fuel) :
    ∃ r, runMembership net rnd fuel cfg username = some r ∧
      RunInv net cfg username 0 ((List.range cfg.Urls.length).zip cfg.Urls) none r :=
  checkLoop_inv net rnd cfg username fuel 0 cfg.Urls (List.range cfg.Urls.length) none hf
    (by simp)

theorem RunInv.mem_urls {t : Nat} {lastErr : Option ε} {r : Run ε}
    (inv : RunInv net cfg username t ((List.range cfg.Urls.length).zip cfg.Urls) lastErr r)
    (a : Attempt ε) (ha : a ∈ r.trace) : cfg.Urls[a.pos]? = some a.url := by
  apply mem_range_zip
  exact inv.subperm.subset (List.mem_map_of_mem Attempt.key ha)

theorem RunInv.nodup_pos {t : Nat} {lastErr : Option ε} {r : Run ε}
    (inv : RunInv net cfg username t ((List.range cfg.Urls.length).zip cfg.Urls) lastErr r) :
    (r.trace.map Attempt.pos).Nodup := by
  obtain ⟨l, hl, hsub⟩ := inv.subperm
  have h1 : (l.map Prod.fst).Nodup := by
    have := hsub.map Prod.fst
    rw [List.map_fst_zip _ _ (by simp)] at this
    exact (List.nodup_range _).sublist this
  have h2 := (hl.map Prod.fst).nodup_iff.mp h1
  simpa [List.map_map, Function.comp_def, Attempt.key] using h2

theorem RunInv.outcome_at {t : Nat} {pool : List (Nat × GoString)} {lastErr : Option ε}
    {r : Run ε} (inv : RunInv net cfg username t pool lastErr r)
    (pre : List (Attempt ε)) (a : Attempt ε) (post : List (Attempt ε))
    (h : r.trace = pre ++ a :: post) :
    a.outcome = endpointOutcome net cfg username (t + pre.length) a.url :=
  inv.outcomes pre.length a (by rw [h, List.getElem?_append_right (Nat.le_refl _)]; simp)

theorem RunInv.answered_last {t : Nat} {pool : List (Nat × GoString)} {lastErr : Option ε}
    {r : Run ε} (inv : RunInv net cfg username t pool lastErr r)
    (a : Attempt ε) (G : List GoString) (ha : a ∈ r.trace) (hG : a.outcome = .answered G) :
    ∃ pre, r.trace = pre ++ [a] ∧ (∀ b ∈ pre, b.outcome.failed = true) ∧
      r.result = .ret (matchGroups cfg.Groups G, none) := by
  have hnf : ¬ a.outcome.failed = true := by simp [hG, Outcome.failed, Outcome.error?]
  rcases inv.shape with ⟨_, hall, _⟩ | ⟨pre, b, G1, htr, hpre, hb, hres⟩ |
    ⟨pre, b, htr, hpre, hb, _⟩
  · exact absurd (hall a ha) hnf
  · rw [htr] at ha
    rcases List.mem_append.mp ha with h | h
    · exact absurd (hpre a h) hnf
    · have hab : a = b := by simpa using h
      subst hab
      rw [hG] at hb
      cases hb
      exact ⟨pre, htr, hpre, hres⟩
  · rw [htr] at ha
    rcases List.mem_append.mp ha with h | h
    · exact absurd (hpre a h) hnf
    · have hab : a = b := by simpa using h
      subst hab
      rw [hG] at hb
      cases hb

theorem lastErrAfter_getLast (lastErr : Option ε) (trace : List (Attempt ε)) (a : Attempt ε)
    (h : trace.getLast? = some a) : lastErrAfter lastErr trace = a.outcome.error? := by
  obtain ⟨ys, rfl⟩ := List.getLast?_eq_some_iff.mp h
  exact lastErrAfter_append lastErr ys a

theorem failed_iff_error {o : Outcome ε} : o.failed = true ↔ ∃ e, o.error? = some e := by
  simp [Outcome.failed, Option.isSome_iff_exists]

theorem checkMembership_eq (r : Run ε)
    (h : runMembership net rnd cfg.Urls.length cfg username = some r) :
    checkMembership net rnd cfg username = some r.result := by
  simp [checkMembership, h]

theorem RunInv.all_failed_result {r : Run ε}
    (inv : RunInv net cfg username 0 ((List.range cfg.Urls.length).zip cfg.Urls) none r)
    (hne : cfg.Urls ≠ [])
    (hp : (r.trace.map Attempt.key).Perm ((List.range cfg.Urls.length).zip cfg.Urls))
    (hall : ∀ a ∈ r.trace, a.outcome.failed = true)
    (hres : r.result = .ret (false, lastErrAfter none r.trace)) :
    ∃ a e, r.trace.length = cfg.Urls.length ∧ r.trace.getLast? = some a ∧
      endpointOutcome net cfg username (cfg.Urls.length - 1) a.url = a.outcome ∧
      a.outcome.error? = some e ∧ r.result = .ret (false, some e) := by
  have hlen : r.trace.length = cfg.Urls.length := by
    have := hp.length_eq
    simpa using this
  have hpos : 0 < cfg.Urls.length := List.length_pos.mpr hne
  obtain ⟨a, hlast⟩ : ∃ a, r.trace.getLast? = some a := by
    cases h : r.trace.getLast? with
    | some a => exact ⟨a, rfl⟩
    | none =>
      rw [List.getLast?_eq_none_iff] at h
      rw [h] at hlen
      simp at hlen
      omega
  have hmem : a ∈ r.trace := List.mem_of_getLast?_eq_some hlast
  obtain ⟨e, he⟩ := (failed_iff_error).mp (hall a hmem)
  have hout := inv.outcomes (r.trace.length - 1) a (by rw [← List.getLast?_eq_getElem?, hlast])
  rw [hlen, Nat.zero_add] at hout
  refine ⟨a, e, hlen, hlast, hout.symm, he, ?_⟩
  rw [hres, lastErrAfter_getLast none r.trace a hlast, he]

/-- Apart from the empty endpoint list, Denied is only returned after an endpoint
answered the query. -/
theorem denied_only_after_answer (r : Run ε) (hne : cfg.Urls ≠ [])
    (hr : runMembership net rnd cfg.Urls.length cfg username = some r)
    (hd : r.result = .ret (false, none)) :
    ∃ pre a G, r.trace = pre ++ [a] ∧ a.outcome = .answered G ∧
      endpointOutcome net cfg username pre.length a.url = .answered G ∧
      cfg.Urls[a.pos]? = some a.url := by
  obtain ⟨r1, hr1, inv⟩ := runMembership_inv net rnd cfg username cfg.Urls.length (Nat.le_refl _)
  rw [hr] at hr1
  cases hr1
  rcases inv.shape with ⟨hp, hall, hres⟩ | ⟨pre, a, G, htr, _, ha, _⟩ | ⟨_, _, _, _, _, hres⟩
  · obtain ⟨a, e, _, _, _, _, h⟩ := RunInv.all_failed_result net cfg username inv hne hp hall hres
    rw [hd] at h
    cases h
  · have hout := RunInv.outcome_at net cfg username inv pre a [] htr
    rw [Nat.zero_add, ha] at hout
    exact ⟨pre, a, G, htr, ha, hout.symm,
      RunInv.mem_urls net cfg username inv a (by simp [htr])⟩
  · rw [hd] at hres
    cases hres

theorem selectionFrom_perm (fuel : Nat) :
    ∀ (t : Nat) (urls : List GoString), urls.length ≤ fuel →
      (selectionFrom rnd fuel t urls).Perm urls := by
  induction fuel with
  | zero =>
    intro t urls hf
    have hnil : urls = [] := List.length_eq_zero.mp (Nat.le_zero.mp hf)
    subst hnil
    exact List.Perm.refl _
  | succ fuel ih =>
    intro t urls hf
    cases urls with
    | nil => exact List.Perm.refl _
    | cons u us =>
      have hlt : rnd t % (u :: us).length < (u :: us).length := Nat.mod_lt _ (Nat.succ_pos _)
      have h1 : ((u :: us).eraseIdx (rnd t % (u :: us).length)).length ≤ fuel := by
        rw [List.length_eraseIdx_of_lt hlt]
        simp at hf ⊢
        omega
      have hperm := perm_get_cons_eraseIdx (u :: us) (rnd t % (u :: us).length) _
        (List.getElem?_eq_getElem hlt)
      rw [selectionFrom]
      exact ((ih (t + 1) _ h1).cons _).trans hperm.symm

theorem checkLoop_first_answer (fuel : Nat) :
    ∀ (t : Nat) (urls : List GoString) (pos : List Nat) (lastErr : Option ε) (k : Nat)
      (u : GoString) (G : List GoString),
      (selectionFrom rnd fuel t urls)[k]? = some u →
      (∀ j v, j < k → (selectionFrom rnd fuel t urls)[j]? = some v →
        (endpointOutcome net cfg username (t + j) v).failed = true) →
      endpointOutcome net cfg username (t + k) u = .answered G →
      ∃ r, checkLoop net rnd cfg username fuel t urls pos lastErr = some r ∧
        r.result = .ret (matchGroups cfg.Groups G, none) ∧ r.trace.length = k + 1 ∧
        ∃ pre a, r.trace = pre ++ [a] ∧ (∀ b ∈ pre, b.outcome.failed = true) ∧
          a.url = u ∧ a.outcome = .answered G := by
  induction fuel with
  | zero =>
    intro t urls pos lastErr k u G hsel _ _
    simp [selectionFrom] at hsel
  | succ fuel ih =>
    intro t urls pos lastErr k u G hsel hfail hans
    cases urls with
    | nil => simp [selectionFrom] at hsel
    | cons u0 us =>
      have hlt : rnd t % (u0 :: us).length < (u0 :: us).length :=
        Nat.mod_lt _ (Nat.succ_pos _)
      have hurl := List.getElem?_eq_getElem hlt
      have hstep := checkLoop_step net rnd cfg username fuel t u0 us pos lastErr _ hurl
      rw [selectionFrom] at hsel hfail
      cases k with
      | zero =>
        have hu : (u0 :: us)[rnd t % (u0 :: us).length] = u := by simpa using hsel
        rw [hu] at hstep
        rw [Nat.add_zero] at hans
        rw [hans] at hstep
        exact ⟨_, hstep, rfl, rfl, [], _, rfl, by simp, rfl, rfl⟩
      | succ k =>
        have hsel1 : (selectionFrom rnd fuel (t + 1)
            ((u0 :: us).eraseIdx (rnd t % (u0 :: us).length)))[k]? = some u := by
          simpa using hsel
        have hfail1 : ∀ j v, j < k → (selectionFrom rnd fuel (t + 1)
            ((u0 :: us).eraseIdx (rnd t % (u0 :: us).length)))[j]? = some v →
            (endpointOutcome net cfg username (t + 1 + j) v).failed = true := by
          intro j v hj hv
          have := hfail (j + 1) v (by omega) (by simpa using hv)
          rwa [show t + (j + 1) = t + 1 + j by omega] at this
        have hans1 : endpointOutcome net cfg username (t + 1 + k) u = .answered G := by
          rwa [show t + (k + 1) = t + 1 + k by omega] at hans
        have h0 : (endpointOutcome net cfg username t
            (u0 :: us)[rnd t % (u0 :: us).length]).failed = true :=
          hfail 0 _ (Nat.succ_pos _) (List.getElem?_cons_zero ..)
        obtain ⟨e, he⟩ := (failed_iff_error).mp h0
        cases ho : endpointOutcome net cfg username t
            (u0 :: us)[rnd t % (u0 :: us).length] with
        | connectFailed e1 =>
          rw [ho] at hstep
          obtain ⟨r, hr, hres, hlen, pre, a, htr, hpre, hau, haG⟩ := ih (t + 1) _
            (pos.eraseIdx (rnd t % (u0 :: us).length)) (some e1) k u G hsel1 hfail1 hans1
          refine ⟨Run.log ⟨pos.getD (rnd t % (u0 :: us).length) 0,
            (u0 :: us)[rnd t % (u0 :: us).length], .connectFailed e1⟩ r, ?_, hres,
            by simp [Run.log, hlen], ?_⟩
          · rw [hstep]
            dsimp only
            rw [hr]
            rfl
          · refine ⟨_ :: pre, a, by show _ :: r.trace = _; rw [htr]; rfl, ?_, hau, haG⟩
            intro b hb
            rcases List.mem_cons.mp hb with h | h
            · rw [h]
              simp [Outcome.failed, Outcome.error?]
            · exact hpre b h
        | queryFailed e1 =>
          rw [ho] at hstep
          obtain ⟨r, hr, hres, hlen, pre, a, htr, hpre, hau, haG⟩ := ih (t + 1) _
            (pos.eraseIdx (rnd t % (u0 :: us).length)) (some e1) k u G hsel1 hfail1 hans1
          refine ⟨Run.log ⟨pos.getD (rnd t % (u0 :: us).length) 0,
            (u0 :: us)[rnd t % (u0 :: us).length], .queryFailed e1⟩ r, ?_, hres,
            by simp [Run.log, hlen], ?_⟩
          · rw [hstep]
            dsimp only
            rw [hr]
            rfl
          · refine ⟨_ :: pre, a, by show _ :: r.trace = _; rw [htr]; rfl, ?_, hau, haG⟩
            intro b hb
            rcases List.mem_cons.mp hb with h | h
            · rw [h]
              simp [Outcome.failed, Outcome.error?]
            · exact hpre b h
        | answered G1 =>
          rw [ho] at he
          cases he
        | panicked =>
          rw [ho] at he
          cases he

end Loop

/-! ## The claims -/

/-- C1, the input on which it fails: with no endpoint configured
(`cfg.Urls` empty) the loop body never runs, no endpoint is contacted (the log
is empty), and `checkMembership` returns `false` with a nil error, that is,
Denied. -/
theorem checkMembership_no_endpoints_denied {ε κ : Type} (net : Net ε κ) (rnd : Nat → Nat)
    (groups : List GoString) (baseDn cacert username : GoString) :
    runMembership net rnd 0 ⟨[], groups, baseDn, cacert⟩ username
        = some ⟨.ret (false, none), []⟩ ∧
      checkMembership net rnd ⟨[], groups, baseDn, cacert⟩ username
        = some (.ret (false, none)) :=
  ⟨rfl, rfl⟩

/-- C2: let some endpoint answer the query in the execution: under the random
choices `rnd` the endpoints tried at the iterations `0, ..., k - 1` fail at the
connect or query stage and the endpoint `u` tried at iteration `k` answers with
the groups `G`, so that `u` is the first endpoint that answers.  Then
`checkMembership` returns `(true, nil)` if some element of `G` equals some
element of `cfg.Groups` and `(false, nil)` otherwise, after exactly `k + 1`
attempts; the error is nil although `k` endpoints failed before. -/
theorem checkMembership_first_answer_decides {ε κ : Type} (net : Net ε κ) (rnd : Nat → Nat)
    (cfg : LdapConfiguration) (username : GoString) (k : Nat) (u : GoString)
    (G : List GoString)
    (hsel : (selection rnd cfg.Urls)[k]? = some u)
    (hfail : ∀ j v, j < k → (selection rnd cfg.Urls)[j]? = some v →
      (endpointOutcome net cfg username j v).failed = true)
    (hans : endpointOutcome net cfg username k u = .answered G) :
    ((∃ g ∈ G, g ∈ cfg.Groups) →
      checkMembership net rnd cfg username = some (.ret (true, none))) ∧
    ((¬ ∃ g ∈ G, g ∈ cfg.Groups) →
      checkMembership net rnd cfg username = some (.ret (false, none))) ∧
    (∃ r, runMembership net rnd cfg.Urls.length cfg username = some r ∧
      r.trace.length = k + 1 ∧
      ∃ pre a, r.trace = pre ++ [a] ∧ (∀ b ∈ pre, b.outcome.failed = true) ∧
        a.url = u ∧ a.outcome = .answered G) := by
  obtain ⟨r, hr, hres, hlen, hlog⟩ := checkLoop_first_answer net rnd cfg username
    cfg.Urls.length 0 cfg.Urls (List.range cfg.Urls.length) none k u G hsel
    (by
      intro j v hj hv
      rw [Nat.zero_add]
      exact hfail j v hj hv)
    (by rwa [Nat.zero_add])
  have hcm := checkMembership_eq net rnd cfg username r hr
  rw [hres] at hcm
  refine ⟨?_, ?_, r, hr, hlen, hlog⟩
  · intro h
    rw [hcm, (matchGroups_iff cfg.Groups G).mpr h]
  · intro h
    have : matchGroups cfg.Groups G = false := by
      rw [Bool.eq_false_iff, Ne, matchGroups_iff]
      exact h
    rw [hcm, this]

/-- C3: if every endpoint of the list, whenever it is tried, either answers with
the same groups `G` or fails at the connect or query stage, and at least one
endpoint always answers, then for every random selection order the result is
`(true, nil)` when `G` shares an element with `cfg.Groups` and `(false, nil)`
otherwise. -/
theorem checkMembership_order_independent {ε κ : Type} (net : Net ε κ)
    (cfg : LdapConfiguration) (username : GoString) (G : List GoString)
    (hsame : ∀ t, ∀ u ∈ cfg.Urls, endpointOutcome net cfg username t u = .answered G ∨
      (endpointOutcome net cfg username t u).failed = true)
    (hone : ∃ u ∈ cfg.Urls, ∀ t, endpointOutcome net cfg username t u = .answered G) :
    ((∃ g ∈ G, g ∈ cfg.Groups) →
      ∀ rnd, checkMembership net rnd cfg username = some (.ret (true, none))) ∧
    ((¬ ∃ g ∈ G, g ∈ cfg.Groups) →
      ∀ rnd, checkMembership net rnd cfg username = some (.ret (false, none))) := by
  have key : ∀ rnd, checkMembership net rnd cfg username
      = some (.ret (matchGroups cfg.Groups G, none)) := by
    intro rnd
    obtain ⟨r, hr, inv⟩ := runMembership_inv net rnd cfg username cfg.Urls.length (Nat.le_refl _)
    rw [checkMembership_eq net rnd cfg username r hr]
    have hurl : ∀ pre a post, r.trace = pre ++ a :: post →
        a.outcome = .answered G ∨ a.outcome.failed = true := by
      intro pre a post htr
      have hout := RunInv.outcome_at net cfg username inv pre a post htr
      have hmem := List.getElem?_mem (RunInv.mem_urls net cfg username inv a (by simp [htr]))
      rw [hout]
      exact hsame _ _ hmem
    rcases inv.shape with ⟨hp, hall, _⟩ | ⟨pre, a, G1, htr, _, ha, hres⟩ | ⟨pre, a, htr, _, ha, _⟩
    · exfalso
      obtain ⟨u, hu, hans⟩ := hone
      obtain ⟨p, hpu⟩ := mem_zip_range cfg.Urls u hu
      have hk : (p, u) ∈ r.trace.map Attempt.key := hp.mem_iff.mpr hpu
      obtain ⟨a, ha, hka⟩ := List.mem_map.mp hk
      obtain ⟨pre, post, htr⟩ := List.append_of_mem ha
      have hout := RunInv.outcome_at net cfg username inv pre a post htr
      have hau : a.url = u := congrArg Prod.snd hka
      rw [hau, hans] at hout
      have := hall a ha
      rw [hout] at this
      simp [Outcome.failed, Outcome.error?] at this
    · rcases hurl pre a [] htr with h | h
      · rw [ha] at h
        cases h
        rw [hres]
      · rw [ha] at h
        simp [Outcome.failed, Outcome.error?] at h
    · exfalso
      rcases hurl pre a [] htr with h | h
      · rw [ha] at h
        cases h
      · rw [ha] at h
        simp [Outcome.failed, Outcome.error?] at h
  constructor
  · intro h rnd
    rw [key rnd, (matchGroups_iff cfg.Groups G).mpr h]
  · intro h rnd
    have : matchGroups cfg.Groups G = false := by
      rw [Bool.eq_false_iff, Ne, matchGroups_iff]
      exact h
    rw [key rnd, this]

/-- C4: for a non-empty endpoint list of which every endpoint, whenever it is
tried, fails at the connect or query stage, `checkMembership` makes exactly
`len(cfg.Urls)` attempts and returns `false` together with a non-nil error, the
error of the attempt made last. -/
theorem checkMembership_all_failed {ε κ : Type} (net : Net ε κ) (rnd : Nat → Nat)
    (cfg : LdapConfiguration) (username : GoString) (hne : cfg.Urls ≠ [])
    (hfail : ∀ t, ∀ u ∈ cfg.Urls, (endpointOutcome net cfg username t u).failed = true) :
    ∃ r a e, runMembership net rnd cfg.Urls.length cfg username = some r ∧
      r.trace.length = cfg.Urls.length ∧ r.trace.getLast? = some a ∧
      endpointOutcome net cfg username (cfg.Urls.length - 1) a.url = a.outcome ∧
      a.outcome.error? = some e ∧
      checkMembership net rnd cfg username = some (.ret (false, some e)) := by
  obtain ⟨r, hr, inv⟩ := runMembership_inv net rnd cfg username cfg.Urls.length (Nat.le_refl _)
  have hurl : ∀ pre a post, r.trace = pre ++ a :: post → a.outcome.failed = true := by
    intro pre a post htr
    have hout := RunInv.outcome_at net cfg username inv pre a post htr
    have hmem := List.getElem?_mem (RunInv.mem_urls net cfg username inv a (by simp [htr]))
    rw [hout]
    exact hfail _ _ hmem
  rcases inv.shape with ⟨hp, hall, hres⟩ | ⟨pre, a, G1, htr, _, ha, _⟩ | ⟨pre, a, htr, _, ha, _⟩
  · obtain ⟨a, e, h1, h2, h3, h4, h5⟩ :=
      RunInv.all_failed_result net cfg username inv hne hp hall hres
    refine ⟨r, a, e, hr, h1, h2, h3, h4, ?_⟩
    rw [checkMembership_eq net rnd cfg username r hr, h5]
  · have := hurl pre a [] htr
    rw [ha] at this
    simp [Outcome.failed, Outcome.error?] at this
  · have := hurl pre a [] htr
    rw [ha] at this
    simp [Outcome.failed, Outcome.error?] at this

/-- C5: `checkMembership` returns, and if an endpoint it tried answered with an
empty group list, the result is `(false, nil)`, that attempt is the last one of
the execution, and every attempt before it failed: the number of attempts made
is the number of failed attempts plus one. -/
theorem checkMembership_empty_groups_denied {ε κ : Type} (net : Net ε κ) (rnd : Nat → Nat)
    (cfg : LdapConfiguration) (username : GoString) :
    ∃ r, runMembership net rnd cfg.Urls.length cfg username = some r ∧
      ∀ a ∈ r.trace, a.outcome = .answered [] →
        checkMembership net rnd cfg username = some (.ret (false, none)) ∧
        ∃ pre, r.trace = pre ++ [a] ∧ (∀ b ∈ pre, b.outcome.failed = true) ∧
          endpointOutcome net cfg username pre.length a.url = .answered [] ∧
          r.trace.length = pre.length + 1 := by
  obtain ⟨r, hr, inv⟩ := runMembership_inv net rnd cfg username cfg.Urls.length (Nat.le_refl _)
  refine ⟨r, hr, ?_⟩
  intro a ha hG
  obtain ⟨pre, htr, hpre, hres⟩ := RunInv.answered_last net cfg username inv a [] ha hG
  have hout := RunInv.outcome_at net cfg username inv pre a [] htr
  rw [Nat.zero_add, hG] at hout
  refine ⟨?_, pre, htr, hpre, hout.symm, by simp [htr]⟩
  rw [checkMembership_eq net rnd cfg username r hr, hres, matchGroups_nil]

theorem demoNet_time (cfg : LdapConfiguration) (username : GoString) (t : Nat) (u : GoString) :
    endpointOutcome demoNet cfg username t u = endpointOutcome demoNet cfg username 0 u := rfl

theorem checkMembership_first_answer_decides_witness :
    checkMembership demoNet (fun _ => 0) demoCfg (str "alice") = some (.ret (true, none)) ∧
    checkMembership demoNet (fun _ => 0) strictCfg (str "alice")
      = some (.ret (false, none)) := by
  have h1 := checkMembership_first_answer_decides demoNet (fun _ => 0) demoCfg (str "alice") 1
    (str "ldap://dirsrv") [str "dev", str "ops"] (by decide)
    (by
      intro j v hj hv
      have hj0 : j = 0 := by omega
      subst hj0
      have hv0 : v = str "ldap://down1" := by
        have h : (selection (fun _ => 0) demoCfg.Urls)[0]? = some (str "ldap://down1") := by
          decide
        exact (Option.some.inj (h.symm.trans hv)).symm
      subst hv0
      decide)
    (by decide)
  have h2 := checkMembership_first_answer_decides demoNet (fun _ => 0) strictCfg (str "alice") 0
    (str "ldap://dirsrv") [str "dev", str "ops"] (by decide)
    (by
      intro j v hj _
      omega)
    (by decide)
  exact ⟨h1.1 (by decide), h2.2.1 (by decide)⟩

theorem checkMembership_order_independent_witness :
    (checkMembership demoNet (fun _ => 0) demoCfg (str "alice") = some (.ret (true, none)) ∧
      checkMembership demoNet (fun t => 2 - t) demoCfg (str "alice")
        = some (.ret (true, none))) ∧
    (checkMembership demoNet (fun _ => 0) twinCfg (str "alice") = some (.ret (true, none)) ∧
      checkMembership demoNet (fun _ => 1) twinCfg (str "alice")
        = some (.ret (true, none))) := by
  have h := (checkMembership_order_independent demoNet demoCfg (str "alice")
    [str "dev", str "ops"]
    (by simp only [demoNet_time]; intro _; decide)
    ⟨str "ldap://dirsrv", by decide, by simp only [demoNet_time]; intro _; decide⟩).1 (by decide)
  have h2 := (checkMembership_order_independent demoNet twinCfg (str "alice")
    [str "dev", str "ops"]
    (by simp only [demoNet_time]; intro _; decide)
    ⟨str "ldaps://dirsrv", by decide, by simp only [demoNet_time]; intro _; decide⟩).1
    (by decide)
  exact ⟨⟨h _, h _⟩, ⟨h2 _, h2 _⟩⟩

theorem checkMembership_all_failed_witness :
    checkMembership demoNet (fun _ => 0) downCfg (str "alice")
      = some (.ret (false, some "connection refused")) := by
  obtain ⟨r, a, e, hr, _, hlast, _, he, h⟩ :=
    checkMembership_all_failed demoNet (fun _ => 0) downCfg (str "alice") (by decide)
      (by simp only [demoNet_time]; intro _; decide)
  have hrun : runMembership demoNet (fun _ => 0) downCfg.Urls.length downCfg (str "alice")
      = some ⟨.ret (false, some "connection refused"),
          [⟨0, str "ldap://down1", .connectFailed "connection refused"⟩,
           ⟨1, str "ldap://down2", .connectFailed "connection refused"⟩]⟩ := by decide
  rw [hrun] at hr
  cases hr
  cases hlast
  cases he
  exact h

theorem checkMembership_empty_groups_denied_witness :
    checkMembership demoNet (fun _ => 0) emptyCfg (str "alice") = some (.ret (false, none)) := by
  obtain ⟨r, hr, h⟩ :=
    checkMembership_empty_groups_denied demoNet (fun _ => 0) emptyCfg (str "alice")
  have hrun : runMembership demoNet (fun _ => 0) emptyCfg.Urls.length emptyCfg (str "alice")
      = some ⟨.ret (false, none),
          [⟨0, str "ldap://down1", .connectFailed "connection refused"⟩,
           ⟨1, str "ldap://empty", .answered []⟩]⟩ := by decide
  rw [hrun] at hr
  cases hr
  exact (h ⟨1, str "ldap://empty", .answered []⟩ (by decide) rfl).1

/-- C6: a member value `cn=<g>,<r>` whose `g` holds no comma is extracted to
exactly `g`; and when every member value of every entry of a search result has
that form, `ldapGetGroups` returns the list of those `g`, in order. -/
theorem ldapGetGroups_extracts_group_name (g r : GoString) (hg : byte ',' ∉ g) :
    memberGroup (str "cn=" ++ g ++ str "," ++ r) = some g ∧
    ∀ {ε κ : Type} (net : Net ε κ) (t : Nat) (conn : κ) (dn username : GoString)
      (entries : List Entry),
      net.Search t conn (searchRequest dn username) = .ok entries →
      (∀ e ∈ entries, ∀ m ∈ e.GetAttributeValues (str "member"),
        ∃ g r, byte ',' ∉ g ∧ m = str "cn=" ++ g ++ str "," ++ r) →
      ∃ groups, ldapGetGroups net t conn dn username = .ret (.ok groups) ∧
        List.Forall₂ (fun m g => ∃ r, byte ',' ∉ g ∧ m = str "cn=" ++ g ++ str "," ++ r)
          (entries.flatMap (fun e => e.GetAttributeValues (str "member"))) groups := by
  refine ⟨memberGroup_cnValue g r hg, ?_⟩
  intro ε κ net t conn dn username entries hs hform
  have hform1 : ∀ m ∈ entries.flatMap members, ∃ g r, byte ',' ∉ g ∧ m = cnValue g r := by
    intro m hm
    obtain ⟨e, he, hme⟩ := List.mem_flatMap.mp hm
    exact hform e he m hme
  have hok : ∀ e ∈ entries, ∀ m ∈ members e, memberGroup m ≠ none := by
    intro e he m hm
    obtain ⟨g1, r1, hg1, rfl⟩ := hform e he m hm
    have := memberGroup_cnValue g1 r1 hg1
    unfold cnValue at this
    rw [this]
    exact Option.some_ne_none _
  refine ⟨(entries.flatMap members).filterMap memberGroup, ?_, filterMap_cnValue _ hform1⟩
  simp [ldapGetGroups, hs, appendEntries_ret entries [] hok]

theorem ldapGetGroups_extracts_group_name_witness :
    memberGroup (str "cn=devteam,ou=groups,dc=example,dc=com") = some (str "devteam") := by
  have h := (ldapGetGroups_extracts_group_name (str "devteam")
    (str "ou=groups,dc=example,dc=com") (by decide)).1
  have e : str "cn=" ++ str "devteam" ++ str "," ++ str "ou=groups,dc=example,dc=com"
      = str "cn=devteam,ou=groups,dc=example,dc=com" := by decide
  rw [e] at h
  exact h

/-- C7: for a host `h` without a colon, `ldap://h` is dialled in plaintext at
`h:389` and `ldaps://h` with TLS at `h:636`; for an address `a` that holds a
colon, `ldap://a` is dialled in plaintext and `ldaps://a` with TLS, both at `a`
unchanged. -/
theorem ldapConnect_address_normalization {ε κ : Type} (net : Net ε κ) (t : Nat)
    (cacert h a : GoString) (hh : byte ':' ∉ h) (ha : byte ':' ∈ a) :
    (dialAddr (str "ldap://" ++ h) = h ++ str ":389" ∧
      ldapConnect net t (str "ldap://" ++ h) cacert = net.Dial t (h ++ str ":389")) ∧
    (dialAddr (str "ldaps://" ++ h) = h ++ str ":636" ∧
      DialsTLS net t (str "ldaps://" ++ h) cacert (h ++ str ":636")) ∧
    (dialAddr (str "ldap://" ++ a) = a ∧
      ldapConnect net t (str "ldap://" ++ a) cacert = net.Dial t a) ∧
    (dialAddr (str "ldaps://" ++ a) = a ∧
      DialsTLS net t (str "ldaps://" ++ a) cacert a) := by
  have h1 : dialAddr (str "ldap://" ++ h) = h ++ str ":389" := by simp [dialAddr_ldap, hh]
  have h2 : dialAddr (str "ldaps://" ++ h) = h ++ str ":636" := by simp [dialAddr_ldaps, hh]
  have h3 : dialAddr (str "ldap://" ++ a) = a := by simp [dialAddr_ldap, ha]
  have h4 : dialAddr (str "ldaps://" ++ a) = a := by simp [dialAddr_ldaps, ha]
  refine ⟨⟨h1, ?_⟩, ⟨h2, ?_⟩, ⟨h3, ?_⟩, ⟨h4, ?_⟩⟩
  · rw [ldapConnect_plain net t _ cacert (useTls_ldap h), h1]
  · unfold DialsTLS
    rw [ldapConnect_tls net t _ cacert (useTls_ldaps h), h2]
  · rw [ldapConnect_plain net t _ cacert (useTls_ldap a), h3]
  · unfold DialsTLS
    rw [ldapConnect_tls net t _ cacert (useTls_ldaps a), h4]

theorem ldapConnect_address_normalization_witness :
    ldapConnect spyNet 0 (str "ldap://dirsrv") (str "") = .ok (false, str "dirsrv:389") ∧
    ldapConnect spyNet 0 (str "ldaps://dirsrv:1636") (str "") = .ok (true, str "dirsrv:1636") := by
  have h := ldapConnect_address_normalization spyNet 0 (str "") (str "dirsrv")
    (str "dirsrv:1636") (by decide) (by decide)
  have e1 : str "ldap://" ++ str "dirsrv" = str "ldap://dirsrv" := by decide
  have e2 : str "ldaps://" ++ str "dirsrv:1636" = str "ldaps://dirsrv:1636" := by decide
  have e3 : str "dirsrv" ++ str ":389" = str "dirsrv:389" := by decide
  refine ⟨?_, ?_⟩
  · have h1 := h.1.2
    rw [e1, e3] at h1
    rw [h1]
    rfl
  · have h2 := h.2.2.2.2
    unfold DialsTLS at h2
    rw [e2] at h2
    rw [h2]
    rfl

/-- C8: the loop of `checkMembership` ends within `len(cfg.Urls)` iterations,
whatever the endpoints do and whatever the random choices are: that many
iterations give a result (and more change nothing), the log holds at most
`len(cfg.Urls)` attempts, no position of `cfg.Urls` is attempted twice, every
attempt is made at the URL of its position, and an iteration whose endpoint
fails continues with the pool from which the picked element is removed, which is
one shorter. -/
theorem checkMembership_terminates {ε κ : Type} (net : Net ε κ) (rnd : Nat → Nat)
    (cfg : LdapConfiguration) (username : GoString) :
    (∃ r, runMembership net rnd cfg.Urls.length cfg username = some r ∧
      (∀ fuel, cfg.Urls.length ≤ fuel → runMembership net rnd fuel cfg username = some r) ∧
      checkMembership net rnd cfg username = some r.result ∧
      r.trace.length ≤ cfg.Urls.length ∧
      (r.trace.map Attempt.pos).Nodup ∧
      (∀ a ∈ r.trace, cfg.Urls[a.pos]? = some a.url)) ∧
    (∀ (fuel t : Nat) (u : GoString) (us : List GoString) (pos : List Nat)
      (lastErr : Option ε) (url : GoString) (e : ε),
      (u :: us)[rnd t % (u :: us).length]? = some url →
      (endpointOutcome net cfg username t url).error? = some e →
      checkLoop net rnd cfg username (fuel + 1) t (u :: us) pos lastErr =
        (checkLoop net rnd cfg username fuel (t + 1)
          ((u :: us).eraseIdx (rnd t % (u :: us).length))
          (pos.eraseIdx (rnd t % (u :: us).length)) (some e)).map
          (Run.log ⟨pos.getD (rnd t % (u :: us).length) 0, url,
            endpointOutcome net cfg username t url⟩) ∧
      ((u :: us).eraseIdx (rnd t % (u :: us).length)).length + 1 = (u :: us).length) := by
  constructor
  · obtain ⟨r, hr, inv⟩ := runMembership_inv net rnd cfg username cfg.Urls.length (Nat.le_refl _)
    refine ⟨r, hr, ?_, checkMembership_eq net rnd cfg username r hr, ?_,
      RunInv.nodup_pos net cfg username inv, RunInv.mem_urls net cfg username inv⟩
    · intro fuel hf
      rw [← hr]
      exact checkLoop_fuel net rnd cfg username cfg.Urls.length fuel 0 cfg.Urls _ none
        (Nat.le_refl _) hf
    · have := inv.subperm.length_le
      simpa using this
  · intro fuel t u us pos lastErr url e hurl he
    have hlt : rnd t % (u :: us).length < (u :: us).length := Nat.mod_lt _ (Nat.succ_pos _)
    refine ⟨?_, by rw [List.length_eraseIdx_of_lt hlt]; simp⟩
    rw [checkLoop_step net rnd cfg username fuel t u us pos lastErr url hurl]
    cases ho : endpointOutcome net cfg username t url with
    | connectFailed e1 =>
      rw [ho] at he
      cases he
      rfl
    | queryFailed e1 =>
      rw [ho] at he
      cases he
      rfl
    | answered G =>
      rw [ho] at he
      cases he
    | panicked =>
      rw [ho] at he
      cases he

/-- C9, a URL on which it fails: `ldaps.example.org` does not begin with
`ldaps://`, and `ldapConnect` dials it with TLS, at port 636. -/
theorem ldapConnect_tls_without_scheme :
    HasPrefix (str "ldaps.example.org") (str "ldaps://") = false ∧
    useTls (str "ldaps.example.org") = true ∧
    ldapConnect spyNet 0 (str "ldaps.example.org") (str "")
      = .ok (true, str "ldaps.example.org:636") :=
  ⟨by decide, by decide, rfl⟩

/-- C9, amended: `ldapConnect` uses TLS exactly when the URL begins with the five
bytes `ldaps` (so for every `ldaps://` URL, and for no `ldap://` URL), and
plaintext otherwise. -/
theorem ldapConnect_tls_iff_ldaps {ε κ : Type} (net : Net ε κ) (t : Nat)
    (url cacert : GoString) :
    (useTls url = true ↔ ∃ rest, url = str "ldaps" ++ rest) ∧
    ((∃ rest, url = str "ldaps" ++ rest) → DialsTLS net t url cacert (dialAddr url)) ∧
    ((¬ ∃ rest, url = str "ldaps" ++ rest) →
      ldapConnect net t url cacert = net.Dial t (dialAddr url)) ∧
    ((∃ rest, url = str "ldaps://" ++ rest) → useTls url = true) ∧
    ((∃ rest, url = str "ldap://" ++ rest) → useTls url = false) := by
  refine ⟨useTls_iff url, ?_, ?_, ?_, ?_⟩
  · intro h
    exact ldapConnect_tls net t url cacert ((useTls_iff url).mpr h)
  · intro h
    apply ldapConnect_plain
    rw [Bool.eq_false_iff, Ne, useTls_iff]
    exact h
  · rintro ⟨rest, rfl⟩
    exact useTls_ldaps rest
  · rintro ⟨rest, rfl⟩
    exact useTls_ldap rest

/-- C10: the slice `m[3:strings.Index(m, ",")]` is in bounds exactly when `m`
holds a comma and at least three bytes precede its first comma; the result is
then what lies between the third byte and that comma, whatever the first three
bytes are.  A value with no comma, or with fewer than three bytes before its
first comma, makes the slice panic, and `ldapGetGroups` panics with it. -/
theorem memberGroup_in_bounds_iff (m : GoString) :
    ((∃ x, memberGroup m = some x) ↔
      ∃ g r, m = g ++ str "," ++ r ∧ byte ',' ∉ g ∧ 3 ≤ g.length) ∧
    (∀ g r, m = g ++ str "," ++ r → byte ',' ∉ g → 3 ≤ g.length →
      memberGroup m = some (g.drop 3)) ∧
    (byte ',' ∉ m → memberGroup m = none) ∧
    (∀ g r, m = g ++ str "," ++ r → byte ',' ∉ g → g.length < 3 → memberGroup m = none) ∧
    (∀ {ε κ : Type} (net : Net ε κ) (t : Nat) (conn : κ) (dn username : GoString)
      (entries : List Entry),
      net.Search t conn (searchRequest dn username) = .ok entries →
      (∃ e ∈ entries, m ∈ e.GetAttributeValues (str "member")) →
      memberGroup m = none → ldapGetGroups net t conn dn username = .panic) := by
  have hsplit : ∀ g r, m = g ++ str "," ++ r → byte ',' ∉ g →
      memberGroup m = if 3 ≤ g.length then some (g.drop 3) else none := by
    intro g r hm hg
    rw [hm, str_comma, List.append_assoc]
    exact memberGroup_split g r hg
  refine ⟨⟨?_, ?_⟩, ?_, memberGroup_no_comma m, ?_, ?_⟩
  · rintro ⟨x, hx⟩
    rcases split_at_first (byte ',') m with h | ⟨g, r, hm, hg⟩
    · rw [memberGroup_no_comma m h] at hx
      cases hx
    · have hm1 : m = g ++ str "," ++ r := by rw [hm, str_comma, List.append_assoc]; rfl
      refine ⟨g, r, hm1, hg, ?_⟩
      by_contra hc
      rw [hsplit g r hm1 hg, if_neg hc] at hx
      cases hx
  · rintro ⟨g, r, hm, hg, h3⟩
    exact ⟨g.drop 3, by rw [hsplit g r hm hg, if_pos h3]⟩
  · intro g r hm hg h3
    rw [hsplit g r hm hg, if_pos h3]
  · intro g r hm hg h3
    rw [hsplit g r hm hg, if_neg (by omega)]
  · intro ε κ net t conn dn username entries hs hmem hnone
    obtain ⟨e, he, hme⟩ := hmem
    have := appendEntries_panic entries [] ⟨e, he, m, hme, hnone⟩
    simp [ldapGetGroups, hs, this]

theorem memberGroup_in_bounds_iff_witness :
    memberGroup (str "ou=dev,dc=example") = some (str "dev") ∧
    memberGroup (str "cn=dev") = none ∧ memberGroup (str "a,cn=dev") = none := by
  have h := memberGroup_in_bounds_iff (str "ou=dev,dc=example")
  have h1 := memberGroup_in_bounds_iff (str "cn=dev")
  have h2 := memberGroup_in_bounds_iff (str "a,cn=dev")
  exact ⟨h.2.1 (str "ou=dev") (str "dc=example") (by decide) (by decide) (by decide),
    h1.2.2.1 (by decide),
    h2.2.2.2.1 (str "a") (str "cn=dev") (by decide) (by decide) (by decide)⟩

end LfsAuth
